import Mathlib

/-!
Shallow embedding of the TEBD toy code (`toycodes/c_tebd.py`) of this
repository: the even/odd sweep scheduler `run_TEBD`, the per-bond update
`update_bond`, and the gate constructor `calc_U_bonds`, together with the
MPS container operations they use.  Tensors are embedded as explicit
dimension tuples with an entry function; contractions (`np.tensordot`)
become finite sums.  The scalar type is kept generic so that the same
definitions can be read over exact rationals and over an extended scalar
type with IEEE-style infinities and NaN.
-/

/-- Finite sum of the first `n` values of `f`, in index order:
`rsum n f = f 0 + f 1 + ... + f (n-1)`. -/
def rsum {K : Type} [Zero K] [Add K] : ℕ → (ℕ → K) → K
  | 0, _ => 0
  | n + 1, f => rsum n f + f n

/-- Rank-3 tensor with axes `(vL, d, vR)` (left bond, physical, right bond),
given by its dimensions and an entry function. -/
structure T3 (K : Type) where
  vL : ℕ
  d : ℕ
  vR : ℕ
  e : ℕ → ℕ → ℕ → K

/-- Rank-4 tensor, given by its dimensions and an entry function. -/
structure T4 (K : Type) where
  n1 : ℕ
  n2 : ℕ
  n3 : ℕ
  n4 : ℕ
  e : ℕ → ℕ → ℕ → ℕ → K

/-- Dense matrix, given by its dimensions and an entry function. -/
structure Mat (K : Type) where
  r : ℕ
  c : ℕ
  e : ℕ → ℕ → K

/-- Zero-size rank-3 tensor, used as the default for list indexing. -/
def dT3 (K : Type) [Zero K] : T3 K :=
  ⟨0, 0, 0, fun _ _ _ => 0⟩

/-- Zero-size rank-4 tensor, used as the default for list indexing. -/
def dT4 (K : Type) [Zero K] : T4 K :=
  ⟨0, 0, 0, 0, fun _ _ _ _ => 0⟩

/-- Boundary condition of the chain: `psi.bc` in the Python code is the
string `'finite'` or `'infinite'`. -/
inductive BC where
  | finite
  | infinite
deriving DecidableEq

/-- Modelled from the spec: the MPS container of `a_mps.py` (not under
`src/`).  It owns the chain length `L`, the boundary condition `bc`, the
list `Bs` of rank-3 site tensors and the list `Ss` of bond singular-value
vectors, exactly the attributes `run_TEBD` and `update_bond` read and
write. -/
structure MPS (K : Type) where
  L : ℕ
  bc : BC
  Bs : List (T3 K)
  Ss : List (List K)

/-- Site tensor `psi.Bs[i]`. -/
def MPS.B {K : Type} [Zero K] (psi : MPS K) (i : ℕ) : T3 K :=
  psi.Bs.getD i (dT3 K)

/-- Singular-value vector `psi.Ss[i]`. -/
def MPS.S {K : Type} (psi : MPS K) (i : ℕ) : List K :=
  psi.Ss.getD i []

/-- Contraction `np.tensordot(np.diag(v), A, axes=[1, 0])`: the diagonal
matrix built from the vector `v` applied to the left bond leg of `A`. -/
def diagMulT3 {K : Type} [Zero K] [Add K] [Mul K] (v : List K) (A : T3 K) : T3 K :=
  ⟨v.length, A.d, A.vR, fun a p r =>
    rsum v.length fun w => (if a = w then v.getD w 0 else 0) * A.e w p r⟩

/-- Contraction `np.tensordot(A, np.diag(v), axes=[2, 0])`: the diagonal
matrix built from the vector `v` applied to the right bond leg of `A`. -/
def t3MulDiag {K : Type} [Zero K] [Add K] [Mul K] (A : T3 K) (v : List K) : T3 K :=
  ⟨A.vL, A.d, v.length, fun a p c =>
    rsum A.vR fun w => A.e a p w * (if w = c then v.getD w 0 else 0)⟩

/-- Contraction `np.tensordot(X, Y, axes=[2, 0])` of two rank-3 tensors,
giving a rank-4 tensor with axes `(vL, i, j, vR)`. -/
def t3ContractT3 {K : Type} [Zero K] [Add K] [Mul K] (X Y : T3 K) : T4 K :=
  ⟨X.vL, X.d, Y.d, Y.vR, fun v p q w =>
    rsum X.vR fun c => X.e v p c * Y.e c q w⟩

/-- Modelled from the spec: `a_mps.MPS.get_theta2` (not under `src/`) —
the two-site wavefunction spanning sites `i, i+1`, constructed by
contracting `diag(S[i])` with `B[i]` and then with `B[(i+1) mod L]`. -/
def get_theta2 {K : Type} [Zero K] [Add K] [Mul K] (psi : MPS K) (i : ℕ) : T4 K :=
  t3ContractT3 (diagMulT3 (psi.S i) (psi.B i)) (psi.B ((i + 1) % psi.L))

/-- Lines 42-43 of `c_tebd.py`:
`Utheta = np.tensordot(U_bond, theta, axes=([2, 3], [1, 2]))` followed by
`np.transpose(Utheta, [2, 0, 1, 3])`, i.e. the gate contracted onto the
two physical legs of `theta`, with axes back in `(vL, i, j, vR)` order. -/
def applyGate {K : Type} [Zero K] [Add K] [Mul K] (U th : T4 K) : T4 K :=
  ⟨th.n1, U.n1, U.n2, th.n4, fun v a b w =>
    rsum U.n3 fun p => rsum U.n4 fun q => U.e a b p q * th.e v p q w⟩

/-- Elementwise `v ** (-1)` of a numpy vector. -/
def vecInv {K : Type} [Inv K] (v : List K) : List K :=
  v.map fun x => x⁻¹

/-- Modelled from the spec: the truncation routine
`a_mps.split_truncate_theta` (not under `src/`) is the SVD-based
Truncation Engine; it is kept as an abstract parameter (the SVD is a
library boundary).  It receives `chi_max`, `eps` and the gated two-site
tensor, and returns the triple `(A, Sj, Bj)`. -/
def TruncFn (K : Type) : Type :=
  ℕ → K → T4 K → T3 K × List K × T3 K

/-- Lines 47-50 of `c_tebd.py` (the installation step the spec calls
`set_bond(i, A, Sj, Bj)`): with `j = (i+1) % L`,
`Gi = np.tensordot(np.diag(psi.Ss[i]**(-1)), A, axes=[1, 0])`,
`psi.Bs[i] = np.tensordot(Gi, np.diag(Sj), axes=[2, 0])`,
`psi.Ss[j] = Sj` and `psi.Bs[j] = Bj`. -/
def set_bond {K : Type} [Zero K] [Add K] [Mul K] [Inv K]
    (psi : MPS K) (i : ℕ) (A : T3 K) (Sj : List K) (Bj : T3 K) : MPS K :=
  let j := (i + 1) % psi.L
  let Gi := diagMulT3 (vecInv (psi.S i)) A
  { psi with
    Bs := (psi.Bs.set i (t3MulDiag Gi Sj)).set j Bj,
    Ss := psi.Ss.set j Sj }

/-- Function `update_bond(psi, i, U_bond, chi_max, eps)` of `c_tebd.py`:
build `theta = psi.get_theta2(i)`, contract the gate onto its physical
legs, split and truncate, and install the factors back into the chain. -/
def update_bond {K : Type} [Zero K] [Add K] [Mul K] [Inv K]
    (trunc : TruncFn K) (psi : MPS K) (i : ℕ) (U_bond : T4 K)
    (chi_max : ℕ) (eps : K) : MPS K :=
  let t := trunc chi_max eps (applyGate U_bond (get_theta2 psi i))
  set_bond psi i t.1 t.2.1 t.2.2

/-- Variant of `update_bond` over a fallible truncation routine: in the
source all mutations (lines 47-50) come after `split_truncate_theta`
(line 45), so a truncation failure aborts the update before any part of
the state is replaced. -/
def update_bondO {K : Type} [Zero K] [Add K] [Mul K] [Inv K]
    (truncO : ℕ → K → T4 K → Option (T3 K × List K × T3 K))
    (psi : MPS K) (i : ℕ) (U_bond : T4 K) (chi_max : ℕ) (eps : K) :
    Option (MPS K) :=
  match truncO chi_max eps (applyGate U_bond (get_theta2 psi i)) with
  | none => none
  | some t => some (set_bond psi i t.1 t.2.1 t.2.2)

/-- Line 27 of `c_tebd.py`:
`Nbonds = psi.L - 1 if psi.bc == 'finite' else psi.L`. -/
def numBonds (L : ℕ) (bc : BC) : ℕ :=
  if bc = BC.finite then L - 1 else L

/-- Python `range(k, n, 2)` as a Lean list. -/
def pyRange (k n : ℕ) : List ℕ :=
  List.range' k ((n - k + 1) / 2) 2

/-- Loop body of the sweeps in `run_TEBD`:
`update_bond(psi, i_bond, U_bonds[i_bond], chi_max, eps)`. -/
def bondStep {K : Type} [Zero K] [Add K] [Mul K] [Inv K]
    (trunc : TruncFn K) (U_bonds : List (T4 K)) (chi_max : ℕ) (eps : K)
    (s : MPS K) (i : ℕ) : MPS K :=
  update_bond trunc s i (U_bonds.getD i (dT4 K)) chi_max eps

/-- Function `run_TEBD(psi, U_bonds, N_steps, chi_max, eps)` of
`c_tebd.py`: after the `assert len(U_bonds) == Nbonds` check (modelled as
a guard returning `none`, so a failing check yields no mutated state),
iterate `N_steps` times the two half-sweeps
`for k in [0, 1]: for i_bond in range(k, Nbonds, 2)`. -/
def run_TEBD {K : Type} [Zero K] [Add K] [Mul K] [Inv K]
    (trunc : TruncFn K) (psi : MPS K) (U_bonds : List (T4 K))
    (N_steps chi_max : ℕ) (eps : K) : Option (MPS K) :=
  if U_bonds.length = numBonds psi.L psi.bc then
    some ((List.range N_steps).foldl (fun st _ =>
      [0, 1].foldl (fun st2 k =>
        (pyRange k (numBonds psi.L psi.bc)).foldl
          (bondStep trunc U_bonds chi_max eps) st2) st) psi)
  else
    none

/-- Even-indexed bonds in `[0, n)` in increasing order, following the
spec text for the first half-sweep. -/
def evenBondsSpec (n : ℕ) : List ℕ :=
  (List.range n).filter fun i => i % 2 = 0

/-- Odd-indexed bonds in `[0, n)` in increasing order, following the
spec text for the second half-sweep. -/
def oddBondsSpec (n : ℕ) : List ℕ :=
  (List.range n).filter fun i => i % 2 = 1

/-- Scheduler following the spec's words: for each of `N_steps`
iterations perform two half-sweeps, first over all even-indexed bonds in
increasing order, then over all odd-indexed bonds, applying the bond
update to each selected bond. -/
def run_TEBD_spec {K : Type} [Zero K] [Add K] [Mul K] [Inv K]
    (trunc : TruncFn K) (psi : MPS K) (U_bonds : List (T4 K))
    (N_steps chi_max : ℕ) (eps : K) : Option (MPS K) :=
  if U_bonds.length = numBonds psi.L psi.bc then
    some ((List.range N_steps).foldl (fun st _ =>
      (evenBondsSpec (numBonds psi.L psi.bc) ++
        oddBondsSpec (numBonds psi.L psi.bc)).foldl
          (bondStep trunc U_bonds chi_max eps) st) psi)
  else
    none

/-- Extended scalar mimicking IEEE floating-point specials: a finite
value (exact rational), positive and negative infinity, and NaN.  Used to
read the embedding over the arithmetic numpy actually performs when a
singular value is inverted without a guard (`0.0 ** -1` yields `inf` with
a warning, not an exception). -/
inductive Val where
  | fin : ℚ → Val
  | inf : Val
  | negInf : Val
  | nan : Val
deriving DecidableEq

/-- IEEE-style addition on the extended scalars. -/
def Val.add : Val → Val → Val
  | .nan, _ => .nan
  | _, .nan => .nan
  | .fin a, .fin b => .fin (a + b)
  | .fin _, .inf => .inf
  | .fin _, .negInf => .negInf
  | .inf, .fin _ => .inf
  | .inf, .inf => .inf
  | .inf, .negInf => .nan
  | .negInf, .fin _ => .negInf
  | .negInf, .negInf => .negInf
  | .negInf, .inf => .nan

/-- IEEE-style multiplication on the extended scalars; in particular
`0 * inf = nan`. -/
def Val.mul : Val → Val → Val
  | .nan, _ => .nan
  | _, .nan => .nan
  | .fin a, .fin b => .fin (a * b)
  | .fin a, .inf => if 0 < a then .inf else if a < 0 then .negInf else .nan
  | .fin a, .negInf => if 0 < a then .negInf else if a < 0 then .inf else .nan
  | .inf, .fin b => if 0 < b then .inf else if b < 0 then .negInf else .nan
  | .negInf, .fin b => if 0 < b then .negInf else if b < 0 then .inf else .nan
  | .inf, .inf => .inf
  | .inf, .negInf => .negInf
  | .negInf, .inf => .negInf
  | .negInf, .negInf => .inf

/-- Reciprocal on the extended scalars: numpy's `0.0 ** -1` evaluates to
`inf` (with a RuntimeWarning, not an exception). -/
def Val.inv : Val → Val
  | .fin a => if a = 0 then .inf else .fin a⁻¹
  | .inf => .fin 0
  | .negInf => .fin 0
  | .nan => .nan

instance : Zero Val := ⟨Val.fin 0⟩

instance : Add Val := ⟨Val.add⟩

instance : Mul Val := ⟨Val.mul⟩

instance : Inv Val := ⟨Val.inv⟩

/-- Finiteness test: `true` exactly on `Val.fin` values. -/
def Val.isFinite : Val → Bool
  | .fin _ => true
  | _ => false

/-- Total entry count of a rank-4 tensor (`H.size` in numpy). -/
def t4Size {K : Type} (H : T4 K) : ℕ :=
  H.n1 * H.n2 * H.n3 * H.n4

/-- C-order (row-major) flattening of a rank-4 tensor, as `np.reshape`
reads it. -/
def t4Flat {K : Type} (H : T4 K) (n : ℕ) : K :=
  H.e (n / (H.n2 * H.n3 * H.n4)) (n / (H.n3 * H.n4) % H.n2)
    (n / H.n4 % H.n3) (n % H.n4)

/-- Line 19 of `c_tebd.py`: `np.reshape(H, [d * d, d * d])`. -/
def reshape42 {K : Type} (d : ℕ) (H : T4 K) : Mat K :=
  ⟨d * d, d * d, fun a b => t4Flat H (a * (d * d) + b)⟩

/-- Scalar multiple of a matrix (`-dt * H`, numpy scalar broadcasting). -/
def matScale {K : Type} [Mul K] (c : K) (M : Mat K) : Mat K :=
  ⟨M.r, M.c, fun a b => c * M.e a b⟩

/-- Line 21 of `c_tebd.py`: `np.reshape(U, [d, d, d, d])`. -/
def reshape24 {K : Type} (d : ℕ) (M : Mat K) : T4 K :=
  ⟨d, d, d, d, fun i j k l => M.e (i * d + j) (k * d + l)⟩

/-- Loop of `calc_U_bonds` over the bond Hamiltonians: each element is
reshaped to a `(d*d, d*d)` matrix (`none` models the ValueError
`np.reshape` raises when the element does not hold exactly `d^4`
entries), scaled by `-dt`, exponentiated and reshaped back to rank 4. -/
def calc_go {K : Type} [Mul K] [Neg K] (expm : Mat K → Mat K) (dt : K)
    (d : ℕ) : List (T4 K) → Option (List (T4 K))
  | [] => some []
  | H :: rest =>
    if t4Size H = d * d * (d * d) then
      match calc_go expm dt d rest with
      | some Us =>
        some (reshape24 d (expm (matScale (-dt) (reshape42 d H))) :: Us)
      | none => none
    else none

/-- Function `calc_U_bonds(H_bonds, dt)` of `c_tebd.py`: the physical
dimension `d = H_bonds[0].shape[0]` is read from the first element (an
IndexError on an empty list, modelled as `none`), and every element is
processed with that same `d`.  The matrix exponential `scipy.linalg.expm`
is an external library boundary, kept as the abstract parameter `expm`. -/
def calc_U_bonds {K : Type} [Mul K] [Neg K] (expm : Mat K → Mat K)
    (dt : K) (H_bonds : List (T4 K)) : Option (List (T4 K)) :=
  match H_bonds with
  | [] => none
  | H0 :: _ => calc_go expm dt H0.n1 H_bonds

/-- Sites touched by the update at bond `i`: site `i` and site
`j = (i + 1) mod L` (line 38 of `c_tebd.py`). -/
def sitePair (i L : ℕ) : List ℕ :=
  [i, (i + 1) % L]

/-- Concrete rank-3 tensor with all dimensions 1 and constant entry. -/
def cT3 (q : ℚ) : T3 ℚ :=
  ⟨1, 1, 1, fun _ _ _ => q⟩

/-- Concrete rank-4 gate with all dimensions 1 and entry 1. -/
def cU4 : T4 ℚ :=
  ⟨1, 1, 1, 1, fun _ _ _ _ => 1⟩

/-- Truncation routine returning a fixed triple, for concrete runs. -/
def mkTrunc (A : T3 ℚ) (Sj : List ℚ) (Bj : T3 ℚ) : TruncFn ℚ :=
  fun _ _ _ => (A, Sj, Bj)

/-- Concrete chain with one site and infinite boundary condition. -/
def psiInf1 : MPS ℚ :=
  ⟨1, BC.infinite, [cT3 1], [[1]]⟩

/-- Concrete chain with one site and finite boundary condition. -/
def psiFin1 : MPS ℚ :=
  ⟨1, BC.finite, [cT3 1], [[1]]⟩

/-- Concrete two-site finite chain. -/
def psiFin2 : MPS ℚ :=
  ⟨2, BC.finite, [cT3 1, cT3 1], [[2], [1]]⟩

/-- Concrete three-site infinite chain. -/
def psiInf3 : MPS ℚ :=
  ⟨3, BC.infinite, [cT3 1, cT3 1, cT3 1], [[1], [1], [1]]⟩

/-- Concrete four-site finite chain. -/
def psiFin4 : MPS ℚ :=
  ⟨4, BC.finite, [cT3 1, cT3 1, cT3 1, cT3 1], [[1], [1], [1], [1]]⟩

/-- Concrete rank-3 tensor over the extended scalars. -/
def vT3 : T3 Val :=
  ⟨1, 1, 1, fun _ _ _ => Val.fin 1⟩

/-- Concrete gate over the extended scalars. -/
def vU4 : T4 Val :=
  ⟨1, 1, 1, 1, fun _ _ _ _ => Val.fin 1⟩

/-- Concrete truncation routine over the extended scalars. -/
def vTrunc : TruncFn Val :=
  fun _ _ _ => (vT3, [Val.fin 1], vT3)

/-- Concrete two-site chain over the extended scalars whose first
singular-value vector contains a zero entry. -/
def psiVal : MPS Val :=
  ⟨2, BC.finite, [vT3, vT3], [[Val.fin 0], [Val.fin 1]]⟩

/-- Concrete rank-4 bond Hamiltonian with all dimensions 1. -/
def cH4 : T4 ℚ :=
  ⟨1, 1, 1, 1, fun _ _ _ _ => 2⟩

/-- Concrete rank-4 tensor whose size does not match `d^4` for `d = 1`. -/
def cH4bad : T4 ℚ :=
  ⟨2, 1, 1, 1, fun _ _ _ _ => 0⟩

/-- Python `range(k, n, 2)` with `k < 2` lists exactly the indices below
`n` whose parity is `k`, in increasing order. -/
theorem pyRange_eq_filter (k : ℕ) (hk : k < 2) :
    ∀ n : ℕ, pyRange k n = (List.range n).filter fun i => i % 2 = k := by
  intro n
  induction n with
  | zero =>
    interval_cases k <;> simp [pyRange, List.range']
  | succ n ih =>
    rw [List.range_succ, List.filter_append]
    by_cases hp : n % 2 = k
    · have hlen : (n + 1 - k + 1) / 2 = (n - k + 1) / 2 + 1 := by omega
      have hval : k + 2 * ((n - k + 1) / 2) = n := by omega
      rw [pyRange, hlen, List.range'_concat, hval, ← pyRange, ih]
      simp [hp]
    · have hlen : (n + 1 - k + 1) / 2 = (n - k + 1) / 2 := by omega
      rw [pyRange, hlen, ← pyRange, ih]
      simp [hp]

/-- C1: for every state, gate list and step count, `run_TEBD` performs
exactly `N_steps` iterations of two half-sweeps — first every
even-indexed bond in `[0, Nbonds)` in increasing order, then every
odd-indexed bond — where each selected bond update builds the two-site
wavefunction via `get_theta2`, contracts the gate onto its physical legs,
truncates with the given `chi_max` and `eps`, and installs the factors:
`run_TEBD` coincides with the scheduler written from the spec's words. -/
theorem c1_run_TEBD_eq_spec (trunc : TruncFn ℚ) (psi : MPS ℚ)
    (U_bonds : List (T4 ℚ)) (N_steps chi_max : ℕ) (eps : ℚ) :
    run_TEBD trunc psi U_bonds N_steps chi_max eps
      = run_TEBD_spec trunc psi U_bonds N_steps chi_max eps := by
  unfold run_TEBD run_TEBD_spec
  have hsweep : ∀ st : MPS ℚ,
      [0, 1].foldl (fun st2 k =>
        (pyRange k (numBonds psi.L psi.bc)).foldl
          (bondStep trunc U_bonds chi_max eps) st2) st
      = (evenBondsSpec (numBonds psi.L psi.bc) ++
          oddBondsSpec (numBonds psi.L psi.bc)).foldl
          (bondStep trunc U_bonds chi_max eps) st := by
    intro st
    rw [List.foldl_append]
    simp [List.foldl, pyRange_eq_filter 0 (by omega),
      pyRange_eq_filter 1 (by omega), evenBondsSpec, oddBondsSpec]
  simp only [hsweep]

/-- Setting index `i` of a list leaves reads at any other index `j`
unchanged. -/
theorem listGetD_set_ne {α : Type} (l : List α) (i j : ℕ) (a d : α)
    (h : i ≠ j) : (l.set i a).getD j d = l.getD j d := by
  simp [List.getD_eq_getElem?_getD, List.getElem?_set_ne h]

/-- Reading an in-range index just set returns the new value. -/
theorem listGetD_set_self {α : Type} (l : List α) (i : ℕ) (a d : α)
    (h : i < l.length) : (l.set i a).getD i d = a := by
  simp [List.getD_eq_getElem?_getD, List.getElem?_set_self h]

/-- Sum of terms that all vanish. -/
theorem rsum_eq_zero (n : ℕ) (f : ℕ → ℚ) (h : ∀ k < n, f k = 0) :
    rsum n f = 0 := by
  induction n with
  | zero => rfl
  | succ n ih =>
    simp [rsum, ih fun k hk => h k (by omega), h n (by omega)]

/-- Summing a family supported on the single index `a` collapses to the
term at `a`. -/
theorem rsum_ite_eq (n a : ℕ) (f : ℕ → ℚ) (h : a < n) :
    rsum n (fun w => if a = w then f w else 0) = f a := by
  induction n with
  | zero => exact absurd h (Nat.not_lt_zero a)
  | succ n ih =>
    by_cases hc : a = n
    · subst hc
      have h0 : rsum a (fun w => if a = w then f w else 0) = 0 :=
        rsum_eq_zero _ _ fun k hk => if_neg (by omega)
      simp [rsum, h0]
    · have ha : a < n := by omega
      have h1 : (if a = n then f n else 0) = 0 := if_neg hc
      simp [rsum, ih ha, h1]

/-- Variant of `rsum_ite_eq` with the equality test reversed. -/
theorem rsum_ite_eq' (n c : ℕ) (f : ℕ → ℚ) (h : c < n) :
    rsum n (fun w => if w = c then f w else 0) = f c := by
  induction n with
  | zero => exact absurd h (Nat.not_lt_zero c)
  | succ n ih =>
    by_cases hc : c = n
    · subst hc
      have h0 : rsum c (fun w => if w = c then f w else 0) = 0 :=
        rsum_eq_zero _ _ fun k hk => if_neg (by omega)
      simp [rsum, h0]
    · have hcn : c < n := by omega
      have h1 : (if n = c then f n else 0) = 0 := if_neg fun hx => hc hx.symm
      simp [rsum, ih hcn, h1]

/-- Entry of the elementwise inverse of a vector, at an in-range index. -/
theorem vecInv_getD {K : Type} [Zero K] [Inv K] (v : List K) (k : ℕ)
    (hk : k < v.length) : (vecInv v).getD k 0 = (v.getD k 0)⁻¹ := by
  simp [vecInv, List.getD_eq_getElem?_getD, List.getElem?_eq_getElem hk,
    List.getElem?_map]

/-- C2: installing a truncated decomposition `(A, Sj, Bj)` at bond `i`
stores `Sj` as the new bond vector at position `j = (i+1) mod L`, stores
`Bj` as the new B-tensor at site `j`, and replaces the tensor at site `i`
by `A` gauge-transformed by the elementwise inverse of the previous
singular-value vector `S[i]` and multiplied by `diag(Sj)`. -/
theorem c2_set_bond_installs (psi : MPS ℚ) (i j : ℕ) (A : T3 ℚ)
    (Sj : List ℚ) (Bj : T3 ℚ)
    (hj : j = (i + 1) % psi.L) (hij : i ≠ j)
    (hiB : i < psi.Bs.length) (hjB : j < psi.Bs.length)
    (hjS : j < psi.Ss.length) :
    (set_bond psi i A Sj Bj).Ss.getD j [] = Sj
    ∧ (set_bond psi i A Sj Bj).Bs.getD j (dT3 ℚ) = Bj
    ∧ ∀ v p c, v < (psi.S i).length → c < A.vR →
        ((set_bond psi i A Sj Bj).Bs.getD i (dT3 ℚ)).e v p c
          = ((psi.S i).getD v 0)⁻¹ * A.e v p c * Sj.getD c 0 := by
  subst hj
  refine ⟨?_, ?_, ?_⟩
  · simp only [set_bond]
    exact listGetD_set_self _ _ _ _ hjS
  · simp only [set_bond]
    exact listGetD_set_self _ _ _ _ (by simpa using hjB)
  · intro v p c hv hc
    have hset : (set_bond psi i A Sj Bj).Bs.getD i (dT3 ℚ)
        = t3MulDiag (diagMulT3 (vecInv (psi.S i)) A) Sj := by
      simp only [set_bond]
      rw [listGetD_set_ne _ _ _ _ _ (Ne.symm hij),
        listGetD_set_self _ _ _ _ hiB]
    rw [hset]
    have houter : (t3MulDiag (diagMulT3 (vecInv (psi.S i)) A) Sj).e v p c
        = (diagMulT3 (vecInv (psi.S i)) A).e v p c * Sj.getD c 0 := by
      simp only [t3MulDiag, diagMulT3, mul_ite, mul_zero]
      exact rsum_ite_eq' _ c _ hc
    have hinner : (diagMulT3 (vecInv (psi.S i)) A).e v p c
        = ((psi.S i).getD v 0)⁻¹ * A.e v p c := by
      simp only [diagMulT3, ite_mul, zero_mul, vecInv, List.length_map]
      rw [show (fun w => if v = w then (List.map (fun x => x⁻¹) (psi.S i)).getD w 0 * A.e w p c else 0)
            = fun w => if v = w then (vecInv (psi.S i)).getD w 0 * A.e w p c else 0 from rfl]
      rw [rsum_ite_eq _ v _ hv, vecInv_getD _ _ hv]
    rw [houter, hinner]

/-- Witness for C2 at a concrete two-site chain. -/
theorem c2_witness :
    (set_bond psiFin2 0 (cT3 3) [4] (cT3 7)).Ss.getD 1 [] = [4]
    ∧ (set_bond psiFin2 0 (cT3 3) [4] (cT3 7)).Bs.getD 1 (dT3 ℚ) = cT3 7
    ∧ ((set_bond psiFin2 0 (cT3 3) [4] (cT3 7)).Bs.getD 0 (dT3 ℚ)).e 0 0 0
        = 6 := by
  have h := c2_set_bond_installs psiFin2 0 1 (cT3 3) [4] (cT3 7)
    (by decide) (by decide) (by decide) (by decide) (by decide)
  refine ⟨h.1, h.2.1, ?_⟩
  rw [h.2.2 0 0 0 (by decide) (by decide)]
  norm_num [psiFin2, MPS.S, cT3]

/-- Folding a state through a list with a body that ignores the element
and returns the state unchanged is the identity. -/
theorem foldl_state_id {A B : Type} (l : List B) (s : A) :
    l.foldl (fun st _ => st) s = s := by
  induction l generalizing s with
  | nil => rfl
  | cons b t ih => exact ih s

/-- C3: the bond count is derived from the boundary condition as `L-1`
for a finite chain and `L` for an infinite chain, and a `U_bonds` length
differing from that bond count makes `run_TEBD` fail before producing
any mutated state (no `B` or `S` entry of any resulting state exists). -/
theorem c3_bond_count_and_length_check (trunc : TruncFn ℚ) (psi : MPS ℚ)
    (U_bonds : List (T4 ℚ)) (N_steps chi_max : ℕ) (eps : ℚ) :
    numBonds psi.L BC.finite = psi.L - 1
    ∧ numBonds psi.L BC.infinite = psi.L
    ∧ (U_bonds.length ≠ numBonds psi.L psi.bc →
        run_TEBD trunc psi U_bonds N_steps chi_max eps = none) := by
  refine ⟨by simp [numBonds], by simp [numBonds], fun h => ?_⟩
  simp [run_TEBD, h]

/-- Witness for C3: a two-site finite chain has one bond, so an empty
gate list is rejected. -/
theorem c3_witness :
    run_TEBD (mkTrunc (cT3 1) [1] (cT3 1)) psiFin2 [] 1 30 0 = none := by
  exact (c3_bond_count_and_length_check (mkTrunc (cT3 1) [1] (cT3 1))
    psiFin2 [] 1 30 0).2.2 (by decide)

/-- C8: with a gate list of matching length, `N_steps = 0` returns the
state with every `B[i]` and `S[i]` identical (the very same state). -/
theorem c8_zero_steps (trunc : TruncFn ℚ) (psi : MPS ℚ)
    (U_bonds : List (T4 ℚ)) (chi_max : ℕ) (eps : ℚ)
    (h : U_bonds.length = numBonds psi.L psi.bc) :
    run_TEBD trunc psi U_bonds 0 chi_max eps = some psi := by
  simp [run_TEBD, h]

/-- Witness for C8 at a concrete two-site chain. -/
theorem c8_witness :
    run_TEBD (mkTrunc (cT3 1) [1] (cT3 1)) psiFin2 [cU4] 0 30 0
      = some psiFin2 := by
  exact c8_zero_steps (mkTrunc (cT3 1) [1] (cT3 1)) psiFin2 [cU4] 30 0
    (by decide)

/-- Counterexample to C5: for `L = 1` with the infinite boundary
condition the code derives one bond, not zero, and a single TEBD step
does change the singular-value entry `S[0]`. -/
theorem c5_counterexample :
    numBonds 1 BC.infinite ≠ 0
    ∧ (run_TEBD (mkTrunc (cT3 1) [2] (cT3 1)) psiInf1 [cU4] 1 30 0).map
        MPS.Ss ≠ some psiInf1.Ss := by
  exact ⟨by decide, by decide⟩

/-- C5 amended: a chain with `L = 1` has no bonds and `run_TEBD` is a
no-op only for the finite boundary condition; with the infinite boundary
condition `L = 1` yields one (wrap-around) bond, which is updated. -/
theorem c5_amended_L1_finite (trunc : TruncFn ℚ) (psi : MPS ℚ)
    (N_steps chi_max : ℕ) (eps : ℚ)
    (hL : psi.L = 1) (hbc : psi.bc = BC.finite) :
    numBonds psi.L psi.bc = 0
    ∧ run_TEBD trunc psi [] N_steps chi_max eps = some psi := by
  have h0 : numBonds psi.L psi.bc = 0 := by simp [numBonds, hL, hbc]
  refine ⟨h0, ?_⟩
  have hp0 : pyRange 0 0 = [] := rfl
  have hp1 : pyRange 1 0 = [] := rfl
  simp only [run_TEBD, h0, List.length_nil, List.foldl, hp0, hp1,
    List.foldl_nil, foldl_state_id]
  simp

/-- Witness for the amended C5 at a concrete one-site finite chain. -/
theorem c5_witness :
    numBonds psiFin1.L psiFin1.bc = 0
    ∧ run_TEBD (mkTrunc (cT3 1) [2] (cT3 1)) psiFin1 [] 5 30 0
        = some psiFin1 := by
  exact c5_amended_L1_finite (mkTrunc (cT3 1) [2] (cT3 1)) psiFin1 5 30 0
    rfl rfl

/-- Four successive writes at pairwise distinct positions of a list can
be reordered in blocks. -/
theorem set4_comm {A : Type} (l : List A) (a b c d : ℕ) (xa xb xc xd : A)
    (hac : a ≠ c) (had : a ≠ d) (hbc : b ≠ c) (hbd : b ≠ d) :
    (((l.set a xa).set b xb).set c xc).set d xd
      = (((l.set c xc).set d xd).set a xa).set b xb := by
  rw [List.set_comm xb xc _ hbc, List.set_comm xa xc _ hac,
    List.set_comm xb xd _ hbd, List.set_comm xa xd _ had]

/-- Reading a singular-value vector away from the written bond of a
`set_bond` gives the previous vector. -/
theorem set_bond_S_ne (q : MPS ℚ) (i : ℕ) (A : T3 ℚ) (Sv : List ℚ)
    (B : T3 ℚ) (k : ℕ) (hk : k ≠ (i + 1) % q.L) :
    (set_bond q i A Sv B).S k = q.S k := by
  simp only [set_bond, MPS.S]
  exact listGetD_set_ne _ _ _ _ _ (Ne.symm hk)

/-- Reading a site tensor away from the two written sites of a
`set_bond` gives the previous tensor. -/
theorem set_bond_B_ne (q : MPS ℚ) (i : ℕ) (A : T3 ℚ) (Sv : List ℚ)
    (B : T3 ℚ) (k : ℕ) (hki : k ≠ i) (hkj : k ≠ (i + 1) % q.L) :
    (set_bond q i A Sv B).B k = q.B k := by
  simp only [set_bond, MPS.B]
  rw [listGetD_set_ne _ _ _ _ _ (Ne.symm hkj),
    listGetD_set_ne _ _ _ _ _ (Ne.symm hki)]

/-- The two-site wavefunction at bond `i1` is unchanged by a `set_bond`
at a bond whose touched sites avoid both sites of bond `i1`. -/
theorem get_theta2_set_bond_ne (q : MPS ℚ) (i2 : ℕ) (A2 : T3 ℚ)
    (S2 : List ℚ) (B2 : T3 ℚ) (i1 : ℕ)
    (h1 : i1 ≠ i2) (h2 : i1 ≠ (i2 + 1) % q.L)
    (h3 : (i1 + 1) % q.L ≠ i2) (h4 : (i1 + 1) % q.L ≠ (i2 + 1) % q.L) :
    get_theta2 (set_bond q i2 A2 S2 B2) i1 = get_theta2 q i1 := by
  have hL : (set_bond q i2 A2 S2 B2).L = q.L := rfl
  simp only [get_theta2, hL]
  rw [set_bond_S_ne q i2 A2 S2 B2 i1 h2, set_bond_B_ne q i2 A2 S2 B2 i1 h1 h2,
    set_bond_B_ne q i2 A2 S2 B2 ((i1 + 1) % q.L) h3 h4]

/-- Two `set_bond` installations at bonds with disjoint site pairs can
be applied in either order. -/
theorem set_bond_swap (psi : MPS ℚ) (i1 i2 : ℕ) (A1 A2 : T3 ℚ)
    (S1 S2 : List ℚ) (B1 B2 : T3 ℚ)
    (h1 : i1 ≠ i2) (h2 : i1 ≠ (i2 + 1) % psi.L)
    (h3 : (i1 + 1) % psi.L ≠ i2)
    (h4 : (i1 + 1) % psi.L ≠ (i2 + 1) % psi.L) :
    set_bond (set_bond psi i2 A2 S2 B2) i1 A1 S1 B1
      = set_bond (set_bond psi i1 A1 S1 B1) i2 A2 S2 B2 := by
  have hS1 : (set_bond psi i2 A2 S2 B2).S i1 = psi.S i1 :=
    set_bond_S_ne psi i2 A2 S2 B2 i1 h2
  have hS2 : (set_bond psi i1 A1 S1 B1).S i2 = psi.S i2 :=
    set_bond_S_ne psi i1 A1 S1 B1 i2 (Ne.symm h3)
  simp only [set_bond, MPS.S] at hS1 hS2 ⊢
  rw [hS1, hS2, MPS.mk.injEq]
  refine ⟨rfl, rfl, ?_, ?_⟩
  · exact set4_comm psi.Bs i2 ((i2 + 1) % psi.L) i1 ((i1 + 1) % psi.L)
      _ _ _ _ (Ne.symm h1) (Ne.symm h3) (Ne.symm h2) (Ne.symm h4)
  · exact List.set_comm _ _ psi.Ss (Ne.symm h4)

/-- Counterexample to C7: in the three-site infinite chain, bonds 0 and
2 belong to the same (even) parity class and are both swept, yet their
site pairs share site 0 and the two updates do not commute. -/
theorem c7_counterexample :
    (0 : ℕ) % 2 = 2 % 2
    ∧ 0 < numBonds 3 BC.infinite
    ∧ 2 < numBonds 3 BC.infinite
    ∧ (sitePair 0 3).inter (sitePair 2 3) ≠ []
    ∧ ((update_bond (mkTrunc (cT3 1) [1] (cT3 5))
          (update_bond (mkTrunc (cT3 1) [1] (cT3 5)) psiInf3 0 cU4 30 0)
          2 cU4 30 0).Bs.getD 0 (dT3 ℚ)).e 0 0 0
      ≠ ((update_bond (mkTrunc (cT3 1) [1] (cT3 5))
          (update_bond (mkTrunc (cT3 1) [1] (cT3 5)) psiInf3 2 cU4 30 0)
          0 cU4 30 0).Bs.getD 0 (dT3 ℚ)).e 0 0 0 := by
  refine ⟨rfl, by decide, by decide, by decide, ?_⟩
  simp only [update_bond, set_bond, mkTrunc, psiInf3, MPS.S, MPS.B, cT3,
    vecInv, diagMulT3, t3MulDiag, rsum, List.map, List.set, List.getD,
    List.get?, List.getD_cons_zero, List.getD_cons_succ]
  norm_num

/-- C7 amended: two bond updates commute whenever their touched site
pairs `{i, (i+1) mod L}` are disjoint; within a parity class this holds
for finite chains, but an infinite chain with an odd number of sites has
same-parity bonds whose site pairs overlap through the wrap-around bond
(see the counterexample), so disjointness of the site pairs is the
correct hypothesis. -/
theorem c7_amended_disjoint_commute (trunc : TruncFn ℚ) (psi : MPS ℚ)
    (i1 i2 : ℕ) (U1 U2 : T4 ℚ) (chi_max : ℕ) (eps : ℚ)
    (hdisj : (sitePair i1 psi.L).inter (sitePair i2 psi.L) = []) :
    update_bond trunc (update_bond trunc psi i2 U2 chi_max eps) i1 U1
        chi_max eps
      = update_bond trunc (update_bond trunc psi i1 U1 chi_max eps) i2 U2
        chi_max eps := by
  have hmem : ∀ x, x ∈ sitePair i1 psi.L → x ∈ sitePair i2 psi.L → False := by
    intro x hx1 hx2
    have hx : x ∈ (sitePair i1 psi.L).inter (sitePair i2 psi.L) :=
      List.mem_inter_iff.mpr ⟨hx1, hx2⟩
    rw [hdisj] at hx
    exact absurd hx (List.not_mem_nil x)
  have h1 : i1 ≠ i2 := fun h =>
    hmem i1 (by simp [sitePair]) (by simp [sitePair, h])
  have h2 : i1 ≠ (i2 + 1) % psi.L := fun h =>
    hmem i1 (by simp [sitePair]) (by simp [sitePair, h])
  have h3 : (i1 + 1) % psi.L ≠ i2 := fun h =>
    hmem ((i1 + 1) % psi.L) (by simp [sitePair]) (by simp [sitePair, h])
  have h4 : (i1 + 1) % psi.L ≠ (i2 + 1) % psi.L := fun h =>
    hmem ((i1 + 1) % psi.L) (by simp [sitePair]) (by simp [sitePair, h])
  have hL1 : (update_bond trunc psi i1 U1 chi_max eps).L = psi.L := rfl
  have hL2 : (update_bond trunc psi i2 U2 chi_max eps).L = psi.L := rfl
  simp only [update_bond]
  rw [get_theta2_set_bond_ne psi i2 _ _ _ i1 h1 h2 h3 h4,
    get_theta2_set_bond_ne psi i1 _ _ _ i2 (Ne.symm h1) (Ne.symm h3)
      (Ne.symm h2) (Ne.symm h4)]
  exact set_bond_swap psi i1 i2 _ _ _ _ _ _ h1 h2 h3 h4

/-- Witness for the amended C7: on the four-site chain, bonds 0 and 2
have disjoint site pairs and the two updates commute. -/
theorem c7_witness :
    update_bond (mkTrunc (cT3 1) [1] (cT3 5))
        (update_bond (mkTrunc (cT3 1) [1] (cT3 5)) psiFin4 2 cU4 30 0)
        0 cU4 30 0
      = update_bond (mkTrunc (cT3 1) [1] (cT3 5))
        (update_bond (mkTrunc (cT3 1) [1] (cT3 5)) psiFin4 0 cU4 30 0)
        2 cU4 30 0 := by
  exact c7_amended_disjoint_commute (mkTrunc (cT3 1) [1] (cT3 5)) psiFin4
    0 2 cU4 cU4 30 0 (by decide)

/-- C6: a completed bond update mutates the `B`/`S` lists only at the
two touched sites `i` and `j = (i+1) mod L` — every other entry is
unchanged — and, over a fallible truncation routine, a truncation
failure aborts the update before any part of the state is produced. -/
theorem c6_update_bond_frame (trunc : TruncFn ℚ)
    (truncO : ℕ → ℚ → T4 ℚ → Option (T3 ℚ × List ℚ × T3 ℚ))
    (psi : MPS ℚ) (i : ℕ) (U : T4 ℚ) (chi_max : ℕ) (eps : ℚ) (k : ℕ)
    (hki : k ≠ i) (hkj : k ≠ (i + 1) % psi.L) :
    (update_bond trunc psi i U chi_max eps).Bs.getD k (dT3 ℚ)
        = psi.Bs.getD k (dT3 ℚ)
    ∧ (update_bond trunc psi i U chi_max eps).Ss.getD k []
        = psi.Ss.getD k []
    ∧ (truncO chi_max eps (applyGate U (get_theta2 psi i)) = none →
        update_bondO truncO psi i U chi_max eps = none) := by
  refine ⟨?_, ?_, fun h => ?_⟩
  · simp only [update_bond, set_bond]
    rw [listGetD_set_ne _ _ _ _ _ (Ne.symm hkj),
      listGetD_set_ne _ _ _ _ _ (Ne.symm hki)]
  · simp only [update_bond, set_bond]
    exact listGetD_set_ne _ _ _ _ _ (Ne.symm hkj)
  · simp only [update_bondO, h]

/-- Witness for C6: on the four-site chain, updating bond 0 leaves site
2 untouched, and a failing truncation aborts the update. -/
theorem c6_witness :
    (update_bond (mkTrunc (cT3 1) [2] (cT3 1)) psiFin4 0 cU4 30 0).Bs.getD
        2 (dT3 ℚ) = psiFin4.Bs.getD 2 (dT3 ℚ)
    ∧ (update_bond (mkTrunc (cT3 1) [2] (cT3 1)) psiFin4 0 cU4 30 0).Ss.getD
        2 [] = psiFin4.Ss.getD 2 []
    ∧ update_bondO (fun _ _ _ => none) psiFin4 0 cU4 30 0 = none := by
  have h := c6_update_bond_frame (mkTrunc (cT3 1) [2] (cT3 1))
    (fun _ _ _ => none) psiFin4 0 cU4 30 0 2 (by decide) (by decide)
  exact ⟨h.1, h.2.1, h.2.2 rfl⟩

/-- A product with a non-finite left factor is non-finite (even against
a zero right factor, where IEEE yields NaN). -/
theorem Val.isFinite_mul_left (a b : Val) (h : a.isFinite = false) :
    (a * b).isFinite = false := by
  show (Val.mul a b).isFinite = false
  cases a <;> cases b <;>
    first
      | rfl
      | (rw [Val.mul]; split_ifs <;> rfl)
      | simp_all [Val.isFinite]

/-- A sum with a non-finite left summand is non-finite. -/
theorem Val.isFinite_add_left (a b : Val) (h : a.isFinite = false) :
    (a + b).isFinite = false := by
  show (Val.add a b).isFinite = false
  cases a <;> cases b <;> first | rfl | simp_all [Val.isFinite]

/-- A sum with a non-finite right summand is non-finite. -/
theorem Val.isFinite_add_right (a b : Val) (h : b.isFinite = false) :
    (a + b).isFinite = false := by
  show (Val.add a b).isFinite = false
  cases a <;> cases b <;> first | rfl | simp_all [Val.isFinite]

/-- A finite sum with one non-finite term is non-finite. -/
theorem rsum_not_finite : ∀ (n k : ℕ) (f : ℕ → Val), k < n →
    (f k).isFinite = false → (rsum n f).isFinite = false := by
  intro n
  induction n with
  | zero => intro k f hk _; exact absurd hk (Nat.not_lt_zero k)
  | succ n ih =>
    intro k f hk h
    show (rsum n f + f n).isFinite = false
    by_cases hkn : k = n
    · exact Val.isFinite_add_right _ _ (hkn ▸ h)
    · exact Val.isFinite_add_left _ _ (ih k f (by omega) h)

/-- C9: `update_bond` inverts the previous singular-value vector `S[i]`
with no guard; when the entry at row `v` is zero the update still
completes (the embedding is total, as numpy only emits a warning) and
every entry of row `v` of the newly installed `B[i]` is non-finite. -/
theorem c9_zero_singular_value_unguarded (trunc : TruncFn Val)
    (psi : MPS Val) (i v : ℕ) (U : T4 Val) (chi_max : ℕ) (eps : Val)
    (hij : (i + 1) % psi.L ≠ i) (hiB : i < psi.Bs.length)
    (hv : v < (psi.S i).length) (h0 : (psi.S i).getD v 0 = 0)
    (hA : 0 < (trunc chi_max eps (applyGate U (get_theta2 psi i))).1.vR) :
    ∀ p c, Val.isFinite
        (((update_bond trunc psi i U chi_max eps).Bs.getD i (dT3 Val)).e
          v p c) = false := by
  intro p c
  have hset : (update_bond trunc psi i U chi_max eps).Bs.getD i (dT3 Val)
      = t3MulDiag
          (diagMulT3 (vecInv (psi.S i))
            (trunc chi_max eps (applyGate U (get_theta2 psi i))).1)
          (trunc chi_max eps (applyGate U (get_theta2 psi i))).2.1 := by
    simp only [update_bond, set_bond]
    rw [listGetD_set_ne _ _ _ _ _ hij, listGetD_set_self _ _ _ _ hiB]
  rw [hset]
  apply rsum_not_finite _ 0 _ hA
  apply Val.isFinite_mul_left
  show Val.isFinite ((diagMulT3 (vecInv (psi.S i)) _).e v p 0) = false
  apply rsum_not_finite _ v _ (by simpa [vecInv] using hv)
  show Val.isFinite ((if v = v then (vecInv (psi.S i)).getD v 0 else 0) * _)
    = false
  rw [if_pos rfl]
  apply Val.isFinite_mul_left
  rw [vecInv_getD _ _ hv, h0]
  rfl

/-- Witness for C9: on a concrete chain whose `S[0]` is the zero vector
`[0]`, the update completes and installs a non-finite entry at `B[0]`. -/
theorem c9_witness :
    Val.isFinite (((update_bond vTrunc psiVal 0 vU4 30 (Val.fin 0)).Bs.getD
        0 (dT3 Val)).e 0 0 0) = false := by
  exact c9_zero_singular_value_unguarded vTrunc psiVal 0 0 vU4 30
    (Val.fin 0) (by decide) (by decide) (by decide) (by decide)
    (by decide) 0 0

/-- When every element has the required size, the `calc_U_bonds` loop
maps each bond Hamiltonian to its exponentiated, reshaped gate, in input
order. -/
theorem calc_go_all (expm : Mat ℚ → Mat ℚ) (dt : ℚ) (d : ℕ) :
    ∀ l : List (T4 ℚ), (∀ H ∈ l, t4Size H = d * d * (d * d)) →
    calc_go expm dt d l
      = some (l.map fun H => reshape24 d (expm (matScale (-dt) (reshape42 d H)))) := by
  intro l
  induction l with
  | nil => intro _; rfl
  | cons H t ih =>
    intro h
    have hH := h H (by simp)
    have ht := ih fun H2 hH2 => h H2 (by simp [hH2])
    simp [calc_go, hH, ht]

/-- A successful `calc_U_bonds` loop requires every element to have
exactly `d^4` entries. -/
theorem calc_go_some_sizes (expm : Mat ℚ → Mat ℚ) (dt : ℚ) (d : ℕ) :
    ∀ (l : List (T4 ℚ)) (Us : List (T4 ℚ)), calc_go expm dt d l = some Us →
      ∀ H ∈ l, t4Size H = d * d * (d * d) := by
  intro l
  induction l with
  | nil => intro Us _ H hH; exact absurd hH (List.not_mem_nil H)
  | cons H t ih =>
    intro Us hUs H2 hH2
    by_cases hs : t4Size H = d * d * (d * d)
    · rcases List.mem_cons.mp hH2 with hEq | hmem
      · exact hEq ▸ hs
      · cases hrec : calc_go expm dt d t with
        | none =>
          rw [calc_go, if_pos hs, hrec] at hUs
          cases hUs
        | some Us2 => exact ih Us2 hrec H2 hmem
    · rw [calc_go, if_neg hs] at hUs
      cases hUs

/-- C4: for a non-empty list of bond Hamiltonians of physical dimension
`d = H_bonds[0].shape[0]` (so each element holds `d^4` entries),
`calc_U_bonds` returns a list of the same length whose `i`-th element is
the matrix exponential of `-dt * H_bonds[i]` — taken on the
`(d*d, d*d)` reshape — reshaped back to a rank-4 `(d, d, d, d)`
tensor. -/
theorem c4_calc_U_bonds_formula (expm : Mat ℚ → Mat ℚ) (dt : ℚ)
    (H0 : T4 ℚ) (rest : List (T4 ℚ))
    (h : ∀ H ∈ H0 :: rest, t4Size H = H0.n1 * H0.n1 * (H0.n1 * H0.n1)) :
    calc_U_bonds expm dt (H0 :: rest)
      = some ((H0 :: rest).map fun H =>
          reshape24 H0.n1 (expm (matScale (-dt) (reshape42 H0.n1 H))))
    ∧ ∀ Us, calc_U_bonds expm dt (H0 :: rest) = some Us →
        Us.length = (H0 :: rest).length := by
  have h1 : calc_U_bonds expm dt (H0 :: rest)
      = some ((H0 :: rest).map fun H =>
          reshape24 H0.n1 (expm (matScale (-dt) (reshape42 H0.n1 H)))) :=
    calc_go_all expm dt H0.n1 (H0 :: rest) h
  refine ⟨h1, fun Us hUs => ?_⟩
  rw [h1] at hUs
  cases hUs
  simp

/-- Witness for C4 with the identity in place of the abstract matrix
exponential and a single one-dimensional bond Hamiltonian. -/
theorem c4_witness :
    calc_U_bonds id (1 : ℚ) [cH4]
      = some ([cH4].map fun H =>
          reshape24 cH4.n1 (id (matScale (-1) (reshape42 cH4.n1 H)))) := by
  exact (c4_calc_U_bonds_formula id 1 cH4 [] (by decide)).1

/-- C10: `calc_U_bonds` reads `d` from the first element (failing on an
empty input), succeeds only when every element holds exactly `d^4`
entries, and on success returns the per-element gates in input order
(hence with the input length). -/
theorem c10_calc_U_bonds_shape (expm : Mat ℚ → Mat ℚ) (dt : ℚ)
    (H0 : T4 ℚ) (rest : List (T4 ℚ)) :
    calc_U_bonds expm dt ([] : List (T4 ℚ)) = none
    ∧ ((∃ H ∈ H0 :: rest, t4Size H ≠ H0.n1 * H0.n1 * (H0.n1 * H0.n1)) →
        calc_U_bonds expm dt (H0 :: rest) = none)
    ∧ ∀ Us, calc_U_bonds expm dt (H0 :: rest) = some Us →
        Us = (H0 :: rest).map fun H =>
          reshape24 H0.n1 (expm (matScale (-dt) (reshape42 H0.n1 H))) := by
  refine ⟨rfl, ?_, fun Us hUs => ?_⟩
  · rintro ⟨H, hmem, hne⟩
    cases hcal : calc_U_bonds expm dt (H0 :: rest) with
    | none => rfl
    | some Us =>
      exact absurd
        (calc_go_some_sizes expm dt H0.n1 (H0 :: rest) Us hcal H hmem) hne
  · have hsizes := calc_go_some_sizes expm dt H0.n1 (H0 :: rest) Us hUs
    have hall := calc_go_all expm dt H0.n1 (H0 :: rest) hsizes
    rw [show calc_U_bonds expm dt (H0 :: rest)
        = calc_go expm dt H0.n1 (H0 :: rest) from rfl, hall] at hUs
    cases hUs
    rfl

/-- Witness for C10: an element whose size differs from `d^4` makes
`calc_U_bonds` fail. -/
theorem c10_witness :
    calc_U_bonds id (1 : ℚ) [cH4, cH4bad] = none := by
  exact (c10_calc_U_bonds_shape id 1 cH4 [cH4bad]).2.1
    ⟨cH4bad, by simp, by decide⟩
